import Mathlib

/-!
Verification of the metadata-merge and filename-selection logic of the
`SaveCheckpointWithMetadata` plugin node (`__init__.py`).

Text (filenames, paths, metadata keys and values) is modelled as `List Char`
(abbreviated `FName`), i.e. a sequence of code points, matching the host
language's string type.  Machine-level details that the logic never touches
(bytes, encodings) are not modelled.  The directory that the node writes
into is modelled as the list of file names it contains (`listing`); the
host's `os.path.exists` within that directory is `fsExists`.
-/

set_option maxHeartbeats 1000000

abbrev FName := List Char

/-- Model of Python `str.strip()`: whitespace removed from both ends. -/
def pyStrip (s : FName) : FName :=
  ((s.dropWhile Char.isWhitespace).reverse.dropWhile Char.isWhitespace).reverse

/-- Model of Python `int(middle)` applied to a string of decimal digits. -/
def digitsVal (ds : FName) : Nat :=
  ds.foldl (fun acc c => acc * 10 + (c.toNat - 48)) 0

/-- Decimal digits of `n`, most significant first; structural fuel version
(the fuel `n+1` always suffices since `n / 10 < n` for `n ≥ 10`). -/
def natDigitsAux : Nat → Nat → List Char
  | 0, _ => []
  | fuel+1, n =>
    if n < 10 then [Nat.digitChar n]
    else natDigitsAux fuel (n / 10) ++ [Nat.digitChar (n % 10)]

/-- Decimal representation of `n` (no sign, no padding). -/
def natDigits (n : Nat) : List Char := natDigitsAux (n + 1) n

/-- Model of the Python format `f"\x7bn:05\x7d"`: the decimal digits of `n`,
left-padded with `'0'` to a minimum width of 5. -/
def pad5 (n : Nat) : FName :=
  List.replicate (5 - (natDigits n).length) '0' ++ natDigits n

/-- Model of `os.path.join(dir, name)` for a plain directory and file name. -/
def joinPath (dir name : FName) : FName := dir ++ '/' :: name

/-- The file name `f"\x7bbase\x7d.safetensors"`. -/
def unsuffixedName (base : FName) : FName := base ++ (".safetensors").data

/-- The file name `f"\x7bbase\x7d_\x7bn:05\x7d_.safetensors"`. -/
def suffixedName (base : FName) (n : Nat) : FName :=
  base ++ '_' :: (pad5 n ++ ("_.safetensors").data)

/-- Embedding of `_build_unsuffixed_path`. -/
def build_unsuffixed_path (dir base : FName) : FName :=
  joinPath dir (unsuffixedName base)

/-- Embedding of `_build_suffixed_path`. -/
def build_suffixed_path (dir base : FName) (n : Nat) : FName :=
  joinPath dir (suffixedName base n)

/-- `os.path.exists` relative to the modelled directory: the path exists iff
it is the join of the directory with one of the names in its listing. -/
def fsExists (listing : List FName) (dir : FName) (p : FName) : Bool :=
  listing.any (fun nm => joinPath dir nm == p)

/-- Loop body of `_next_suffix_from_dir`: a name contributes when it starts
with `base + "_"`, ends with `"_.safetensors"` and the middle slice
`name[len(base)+1 : -13]` is a non-empty digit string; then the running
counter `next_n` is bumped to `n + 1` whenever `n >= next_n`. -/
def scan_step (base : FName) (next_n : Nat) (name : FName) : Nat :=
  if (base ++ ['_']).isPrefixOf name && ("_.safetensors").data.isSuffixOf name then
    let middle := (name.drop (base.length + 1)).take (name.length - 13 - (base.length + 1))
    if !middle.isEmpty && middle.all Char.isDigit then
      let n := digitsVal middle
      if next_n ≤ n then n + 1 else next_n
    else next_n
  else next_n

/-- Embedding of `_next_suffix_from_dir`: fold the loop body over the
directory listing starting from 1.  (The `FileNotFoundError` branch of the
source corresponds to an empty listing, for which the fold returns 1.) -/
def next_suffix_from_dir (listing : List FName) (base : FName) : Nat :=
  listing.foldl (scan_step base) 1

/-- The suffix number a directory entry contributes to the scan of
`_next_suffix_from_dir`, if any (clean reformulation of the loop-body test,
used to state properties of the fold). -/
def matchedSuffix (base name : FName) : Option Nat :=
  if (base ++ ['_']).isPrefixOf name && ("_.safetensors").data.isSuffixOf name then
    let middle := (name.drop (base.length + 1)).take (name.length - 13 - (base.length + 1))
    if !middle.isEmpty && middle.all Char.isDigit then some (digitsVal middle)
    else none
  else none

/-- One step of taking the maximum of the contributed suffix numbers. -/
def match_step (base : FName) (acc : Nat) (name : FName) : Nat :=
  match matchedSuffix base name with
  | some m => max acc m
  | none => acc

/-- Largest suffix number contributed by any entry of the listing (0 when
none contributes). -/
def maxMatched (listing : List FName) (base : FName) : Nat :=
  listing.foldl (match_step base) 0

/-- Embedding of the `while os.path.exists(path)` probe loop of
`_choose_ckpt_path`, with explicit fuel (the Python loop terminates because
the directory is finite; `listing.length + 1` fuel always suffices, see
`probeLoop_total`). -/
def probeLoop (listing : List FName) (dir base : FName) : Nat → Nat → Option FName
  | _, 0 => none
  | n, fuel+1 =>
    let path := build_suffixed_path dir base n
    if fsExists listing dir path then probeLoop listing dir base (n + 1) fuel
    else some path

/-- Embedding of `_choose_ckpt_path`. -/
def choose_ckpt_path (listing : List FName) (dir base : FName)
    (filename_mode : FName) (fuel : Nat) : Option FName :=
  let unsuffixed := build_unsuffixed_path dir base
  if filename_mode = ("no_counter_overwrite").data then some unsuffixed
  else if fsExists listing dir unsuffixed = false then some unsuffixed
  else probeLoop listing dir base (next_suffix_from_dir listing base) fuel

/-- `_choose_ckpt_path` with the always-sufficient fuel `listing.length + 1`
(`probeLoop_total` shows the default is never taken). -/
def choose_ckpt_pathD (listing : List FName) (dir base : FName)
    (filename_mode : FName) : FName :=
  (choose_ckpt_path listing dir base filename_mode (listing.length + 1)).getD
    (build_unsuffixed_path dir base)

/-! ## JSON values and serialization

JSON values as produced by the host's `json.loads`.  JSON `null` maps to
the host's `None` (so `Json.null` plays both roles).  Numbers are
restricted to integers: the logic under verification never computes with
numbers, it only re-serializes them, and floating point is out of scope. -/

inductive Json where
  | null
  | bool (b : Bool)
  | num (n : Int)
  | str (s : FName)
  | arr (xs : List Json)
  | obj (kvs : List (FName × Json))

/-- JSON escaping of one character as `json.dumps(..., ensure_ascii=False)`
does it: short escapes for the common control characters, quote and
backslash, `\u00XX` for remaining control characters, everything else
unchanged. -/
def escapeChar (c : Char) : List Char :=
  if c = '"' then ['\\', '"']
  else if c = '\\' then ['\\', '\\']
  else if c = '\n' then ['\\', 'n']
  else if c = '\r' then ['\\', 'r']
  else if c = '\t' then ['\\', 't']
  else if c.toNat = 8 then ['\\', 'b']
  else if c.toNat = 12 then ['\\', 'f']
  else if c.toNat < 32 then
    ['\\', 'u', '0', '0', Nat.digitChar (c.toNat / 16), Nat.digitChar (c.toNat % 16)]
  else [c]

def quoteStr (s : FName) : FName :=
  '"' :: ((s.map escapeChar).flatten ++ ['"'])

/-- Decimal text of an integer (the JSON numeral). -/
def intRepr (n : Int) : FName :=
  if n < 0 then '-' :: natDigits n.natAbs else natDigits n.natAbs

/-! Model of `json.dumps(v, ensure_ascii=False)` with the default
separators `", "` and `": "`. -/

mutual

def dumps : Json → FName
  | .null => ("null").data
  | .bool true => ("true").data
  | .bool false => ("false").data
  | .num n => intRepr n
  | .str s => quoteStr s
  | .arr [] => ("[]").data
  | .arr (x :: xs) => '[' :: (dumps x ++ dumpsArrRest xs ++ [']'])
  | .obj [] => ("\x7b\x7d").data
  | .obj (kv :: kvs) =>
    '\x7b' :: (quoteStr kv.1 ++ (": ").data ++ dumps kv.2 ++ dumpsObjRest kvs ++ ['\x7d'])

def dumpsArrRest : List Json → FName
  | [] => []
  | y :: ys => (", ").data ++ dumps y ++ dumpsArrRest ys

def dumpsObjRest : List (FName × Json) → FName
  | [] => []
  | kv :: kvs =>
    (", ").data ++ quoteStr kv.1 ++ (": ").data ++ dumps kv.2 ++ dumpsObjRest kvs

end

/-- The value-coercion rule used by `_coerce_metadata` and the
`EXTRA_PNGINFO` copy loop: `v if isinstance(v, str) else
json.dumps(v, ensure_ascii=False)`. -/
def coerceVal (v : Json) : FName :=
  match v with
  | .str s => s
  | v => dumps v

/-- Key/value coercion over a parsed object's pairs (`str(k)` is the
identity on the string keys produced by the JSON parser). -/
def coercePairs (kvs : List (FName × Json)) : List (FName × FName) :=
  kvs.map (fun kv => (kv.1, coerceVal kv.2))

/-- The two `ValueError`s the save path can raise (the spec's
`ConfigurationError`): a JSON parse failure carrying the parser's message
(`f"Invalid metadata_json: \x7be\x7d"`), or the not-an-object rejection
(`"metadata_json must be a JSON object."`). -/
inductive CfgErr where
  | invalidJson (msg : FName)
  | notObject
deriving DecidableEq

/-- Embedding of `_coerce_metadata`.  The host's parser maps JSON `null`
to `None`, and `_coerce_metadata` returns an empty mapping for `None`;
any other non-mapping argument raises the not-an-object `ValueError`. -/
def coerce_metadata : Json → Except CfgErr (List (FName × FName))
  | .null => .ok []
  | .obj kvs => .ok (coercePairs kvs)
  | _ => .error .notObject

/-- Embedding of `_serialize_prompt`.  The argument is the host value:
`None` (modelled by `Json.null`), a string, or a structured value. -/
def serialize_prompt : Json → Option FName
  | .null => none
  | .str s => if (pyStrip s).isEmpty then none else some (pyStrip s)
  | v => some (dumps v)

/-! ### Model of the host JSON parser

Modelled from the spec: the parsing of `metadata_json` and
`prompt_override` uses the host standard library's `json.loads`, which is
not part of this repository.  Standard JSON syntax; numbers restricted to
integers (a numeral with a fraction or exponent is rejected by the model
rather than parsed as floating point, which is out of scope); duplicate
object keys follow the host behaviour of last-value-wins at the first
occurrence's position (`dSet`). -/

def isJsonWs (c : Char) : Bool :=
  c == ' ' || c == '\t' || c == '\n' || c == '\r'

def skipWs (s : FName) : FName := s.dropWhile isJsonWs

def parseHex (c : Char) : Option Nat :=
  if c.isDigit then some (c.toNat - 48)
  else if 'a' ≤ c ∧ c ≤ 'f' then some (c.toNat - 87)
  else if 'A' ≤ c ∧ c ≤ 'F' then some (c.toNat - 55)
  else none

def escDecode (e : Char) : Option Char :=
  if e = '"' then some '"'
  else if e = '\\' then some '\\'
  else if e = '/' then some '/'
  else if e = 'b' then some (Char.ofNat 8)
  else if e = 'f' then some (Char.ofNat 12)
  else if e = 'n' then some '\n'
  else if e = 'r' then some '\r'
  else if e = 't' then some '\t'
  else none

/-- String body after the opening quote: content and remaining input. -/
def parseStringBody : FName → Option (FName × FName)
  | [] => none
  | '"' :: rest => some ([], rest)
  | '\\' :: 'u' :: h1 :: h2 :: h3 :: h4 :: rest =>
    match parseHex h1, parseHex h2, parseHex h3, parseHex h4 with
    | some a, some b, some c, some d =>
      (parseStringBody rest).map
        (fun p => (Char.ofNat (((a * 16 + b) * 16 + c) * 16 + d) :: p.1, p.2))
    | _, _, _, _ => none
  | '\\' :: e :: rest =>
    match escDecode e with
    | some c => (parseStringBody rest).map (fun p => (c :: p.1, p.2))
    | none => none
  | c :: rest =>
    if c.toNat < 32 then none
    else (parseStringBody rest).map (fun p => (c :: p.1, p.2))

/-- Integer JSON numeral (leading zeros rejected as in strict JSON;
fraction/exponent rejected as out of the model's scope). -/
def parseNumber (s : FName) : Option (Json × FName) :=
  let body := fun (neg : Bool) (s1 : FName) =>
    let ds := s1.takeWhile Char.isDigit
    let rest := s1.dropWhile Char.isDigit
    match ds with
    | [] => none
    | '0' :: _ :: _ => none
    | _ =>
      match rest with
      | '.' :: _ => none
      | 'e' :: _ => none
      | 'E' :: _ => none
      | _ => some (Json.num (if neg then -(digitsVal ds : Int) else (digitsVal ds : Int)), rest)
  match s with
  | '-' :: s1 => body true s1
  | s1 => body false s1

/-- Python-dict assignment `d[k] = v`: replace the value at an existing
key in place, else append the new pair at the end. -/
def dSet {β : Type} : List (FName × β) → FName → β → List (FName × β)
  | [], k, v => [(k, v)]
  | kv :: rest, k, v =>
    if kv.1 = k then (k, v) :: rest else kv :: dSet rest k v

/-- Python-dict lookup. -/
def dGet {β : Type} : List (FName × β) → FName → Option β
  | [], _ => none
  | kv :: rest, k => if kv.1 = k then some kv.2 else dGet rest k

/-- Python `dict.update`: assign every pair of `e` into `d` in order. -/
def dUpdate (d e : List (FName × FName)) : List (FName × FName) :=
  e.foldl (fun acc kv => dSet acc kv.1 kv.2) d

mutual

def parseValue : Nat → FName → Except FName (Json × FName)
  | 0, _ => .error ("input too deeply nested").data
  | fuel+1, s =>
    match skipWs s with
    | [] => .error ("unexpected end of input").data
    | c :: rest =>
      if c = 'n' then
        match rest with
        | 'u' :: 'l' :: 'l' :: r => .ok (.null, r)
        | _ => .error ("invalid literal").data
      else if c = 't' then
        match rest with
        | 'r' :: 'u' :: 'e' :: r => .ok (.bool true, r)
        | _ => .error ("invalid literal").data
      else if c = 'f' then
        match rest with
        | 'a' :: 'l' :: 's' :: 'e' :: r => .ok (.bool false, r)
        | _ => .error ("invalid literal").data
      else if c = '"' then
        match parseStringBody rest with
        | some p => .ok (.str p.1, p.2)
        | none => .error ("invalid string").data
      else if c = '[' then
        match skipWs rest with
        | ']' :: r => .ok (.arr [], r)
        | r2 =>
          match parseArrayBody fuel r2 [] with
          | .error e => .error e
          | .ok p => .ok (.arr p.1, p.2)
      else if c = '\x7b' then
        match skipWs rest with
        | '\x7d' :: r => .ok (.obj [], r)
        | r2 =>
          match parseObjectBody fuel r2 [] with
          | .error e => .error e
          | .ok p => .ok (.obj p.1, p.2)
      else
        match parseNumber (c :: rest) with
        | some p => .ok p
        | none => .error ("expecting value").data

def parseArrayBody : Nat → FName → List Json → Except FName (List Json × FName)
  | 0, _, _ => .error ("input too deeply nested").data
  | fuel+1, s, acc =>
    match parseValue fuel s with
    | .error e => .error e
    | .ok p =>
      match skipWs p.2 with
      | ',' :: r2 => parseArrayBody fuel r2 (acc ++ [p.1])
      | ']' :: r2 => .ok (acc ++ [p.1], r2)
      | _ => .error ("expecting comma delimiter").data

def parseObjectBody : Nat → FName →
    List (FName × Json) → Except FName (List (FName × Json) × FName)
  | 0, _, _ => .error ("input too deeply nested").data
  | fuel+1, s, acc =>
    match skipWs s with
    | '"' :: r =>
      match parseStringBody r with
      | none => .error ("invalid string").data
      | some kp =>
        match skipWs kp.2 with
        | ':' :: r3 =>
          match parseValue fuel r3 with
          | .error e => .error e
          | .ok p =>
            match skipWs p.2 with
            | ',' :: r5 => parseObjectBody fuel r5 (dSet acc kp.1 p.1)
            | '\x7d' :: r5 => .ok (dSet acc kp.1 p.1, r5)
            | _ => .error ("expecting comma delimiter").data
        | _ => .error ("expecting colon delimiter").data
    | _ => .error ("expecting property name").data

end

/-- Model of `json.loads`: parse one value, then require only whitespace
to remain.  Fuel `length + 1` always suffices: every recursive descent
first consumes at least one character of input. -/
def jsonParse (s : FName) : Except FName Json :=
  match parseValue (s.length + 1) s with
  | .error e => .error e
  | .ok p => if (skipWs p.2).isEmpty then .ok p.1 else .error ("extra data").data

/-! ## Embedding of `save` -/

/-- Lines 164-169 of the source: parse `metadata_json` (empty or
whitespace-only input stands for the empty object and skips the parser),
translate any parser exception into the `Invalid metadata_json` error, and
coerce the result outside that `try`. -/
def parse_user_meta (metadata_json : FName) : Except CfgErr (List (FName × FName)) :=
  if (pyStrip metadata_json).isEmpty then .ok []
  else
    match jsonParse metadata_json with
    | .error e => .error (.invalidJson e)
    | .ok v => coerce_metadata v

/-- Lines 171-179 of the source: the effective prompt. -/
def effective_prompt (prompt_override : FName) (prompt : Json) : Option FName :=
  if !prompt_override.isEmpty && !(pyStrip prompt_override).isEmpty then
    match jsonParse prompt_override with
    | .ok parsed => serialize_prompt parsed
    | .error _ => serialize_prompt (.str prompt_override)
  else serialize_prompt prompt

/-- Lines 181-195 of the source: base metadata and the tracked
`EXTRA_PNGINFO` subset.  `extra_pnginfo = none` stands for the host
passing `None` (or any non-dict).  The per-entry loop
`base_metadata[str(k)] = coerced v` is the fold of dict assignment over
the entries, i.e. `dUpdate` with the coerced pairs; the `except` fallback
`str(v)` of the source is unreachable in the model because `dumps` is
total on `Json`. -/
def prompt_base (eff : Option FName) : List (FName × FName) :=
  match eff with
  | some p => dSet [] ("prompt").data p
  | none => []

def base_metadata_of (metadata_mode : FName) (include_extra_pnginfo : Bool)
    (eff : Option FName) (extra_pnginfo : Option (List (FName × Json))) :
    List (FName × FName) × List (FName × FName) :=
  if metadata_mode = ("merge_minimal").data then
    match include_extra_pnginfo, extra_pnginfo with
    | true, some ex => (dUpdate (prompt_base eff) (coercePairs ex),
                        dUpdate [] (coercePairs ex))
    | _, _ => (prompt_base eff, [])
  else ([], [])

/-- Filesystem effects the save path performs, in order. -/
inductive FsOp where
  | makedirs (dir : FName)
  | write_checkpoint (path : FName)
deriving DecidableEq

structure SaveOut where
  ckpt_path : FName
  final_meta : List (FName × FName)
  saved_prompt : FName
  saved_extra : List (FName × FName)
deriving DecidableEq

/-- Embedding of `save` (lines 150-225).  The opaque model/clip/vae
handles are omitted (they are passed through unchanged to the external
checkpoint writer); the external directory-resolution collaborator's
outputs are the parameters `full_dir` and `base`; the directory contents
are `listing`.  The returned list records the filesystem effects in
program order; a `ConfigurationError` result performs none, since the
parse is the first statement of `save`. -/
def save (metadata_json metadata_mode : FName) (include_extra_pnginfo : Bool)
    (prompt_override : FName) (prompt : Json)
    (extra_pnginfo : Option (List (FName × Json)))
    (listing : List FName) (full_dir base : FName) (filename_mode : FName) :
    List FsOp × Except CfgErr SaveOut :=
  match parse_user_meta metadata_json with
  | .error e => ([], .error e)
  | .ok user_meta =>
    let eff := effective_prompt prompt_override prompt
    let bm := base_metadata_of metadata_mode include_extra_pnginfo eff extra_pnginfo
    let final_meta := dUpdate bm.1 user_meta
    let ckpt_path := choose_ckpt_pathD listing full_dir base filename_mode
    ([.makedirs full_dir, .write_checkpoint ckpt_path],
     .ok { ckpt_path := ckpt_path
           final_meta := final_meta
           saved_prompt := (dGet final_meta ("prompt").data).getD []
           saved_extra := bm.2 })

/-! ## Lemmas and claim theorems -/

/-! ### Decimal-digit lemmas -/

theorem digitChar_toNat : ∀ d, d < 10 → (Nat.digitChar d).toNat = 48 + d := by decide

theorem digitChar_isDigit : ∀ d, d < 10 → (Nat.digitChar d).isDigit = true := by decide

theorem digitsVal_append_singleton (ds : FName) (c : Char) :
    digitsVal (ds ++ [c]) = digitsVal ds * 10 + (c.toNat - 48) := by
  simp [digitsVal, List.foldl_append]

theorem digitsVal_natDigitsAux : ∀ fuel n, n < fuel →
    digitsVal (natDigitsAux fuel n) = n := by
  intro fuel
  induction fuel with
  | zero => omega
  | succ fuel ih =>
    intro n hn
    by_cases h10 : n < 10
    · simp only [natDigitsAux, if_pos h10]
      have := digitChar_toNat n h10
      simp [digitsVal]
      omega
    · have hdiv : n / 10 < fuel := by
        have : n / 10 < n := Nat.div_lt_self (by omega) (by omega)
        omega
      simp only [natDigitsAux, if_neg h10]
      rw [digitsVal_append_singleton, ih _ hdiv,
        digitChar_toNat (n % 10) (Nat.mod_lt _ (by omega))]
      omega

theorem digitsVal_natDigits (n : Nat) : digitsVal (natDigits n) = n :=
  digitsVal_natDigitsAux (n + 1) n (Nat.lt_succ_self n)

theorem digitsVal_replicate_zero (k : Nat) (ds : FName) :
    digitsVal (List.replicate k '0' ++ ds) = digitsVal ds := by
  induction k with
  | zero => simp
  | succ k ih =>
    simpa [digitsVal, List.replicate_succ] using ih

theorem digitsVal_pad5 (n : Nat) : digitsVal (pad5 n) = n := by
  rw [pad5, digitsVal_replicate_zero, digitsVal_natDigits]

theorem pad5_inj {a b : Nat} (h : pad5 a = pad5 b) : a = b := by
  have := congrArg digitsVal h
  rwa [digitsVal_pad5, digitsVal_pad5] at this

theorem natDigitsAux_ne_nil : ∀ fuel n, 0 < fuel → natDigitsAux fuel n ≠ [] := by
  intro fuel n hf
  match fuel, hf with
  | fuel+1, _ =>
    by_cases h10 : n < 10 <;> simp [natDigitsAux, h10]

theorem natDigitsAux_all_digits : ∀ fuel n, (natDigitsAux fuel n).all Char.isDigit = true := by
  intro fuel
  induction fuel with
  | zero => intro n; rfl
  | succ fuel ih =>
    intro n
    by_cases h10 : n < 10
    · simp [natDigitsAux, h10, digitChar_isDigit n h10]
    · simp [natDigitsAux, h10, ih (n / 10),
        digitChar_isDigit (n % 10) (Nat.mod_lt _ (by omega))]

theorem pad5_ne_nil (n : Nat) : pad5 n ≠ [] := by
  intro h
  rcases List.append_eq_nil.mp h with ⟨-, h2⟩
  exact natDigitsAux_ne_nil _ n (Nat.succ_pos n) h2

theorem pad5_all_digits (n : Nat) : (pad5 n).all Char.isDigit = true := by
  have h2 := natDigitsAux_all_digits (n + 1) n
  simp only [pad5, natDigits, List.all_append, h2, Bool.and_true]
  simp [List.all_eq_true]

theorem natDigitsAux_length_le : ∀ fuel n k, n < fuel → n < 10 ^ k → 1 ≤ k →
    (natDigitsAux fuel n).length ≤ k := by
  intro fuel
  induction fuel with
  | zero => omega
  | succ fuel ih =>
    intro n k hn hk h1
    by_cases h10 : n < 10
    · simp [natDigitsAux, h10]; omega
    · have hk2 : 2 ≤ k := by
        by_contra hlt
        interval_cases k
        · simp [pow_one] at hk; omega
      have hdiv : n / 10 < fuel := by
        have : n / 10 < n := Nat.div_lt_self (by omega) (by omega)
        omega
      have hpow : n / 10 < 10 ^ (k - 1) := by
        rw [Nat.div_lt_iff_lt_mul (by omega)]
        calc n < 10 ^ k := hk
        _ = 10 ^ (k - 1) * 10 := by
              rw [← pow_succ]
              congr 1
              omega
      have := ih (n / 10) (k - 1) hdiv hpow (by omega)
      simp only [natDigitsAux, if_neg h10, List.length_append, List.length_cons,
        List.length_nil]
      omega

theorem pad5_length (n : Nat) (h : n < 100000) : (pad5 n).length = 5 := by
  have hlen : (natDigits n).length ≤ 5 :=
    natDigitsAux_length_le (n + 1) n 5 (Nat.lt_succ_self n) (by norm_num; omega) (by omega)
  simp only [pad5, List.length_append, List.length_replicate]
  omega

/-! ### Path and name lemmas -/

theorem joinPath_inj {dir a b : FName} (h : joinPath dir a = joinPath dir b) : a = b := by
  simpa [joinPath] using List.append_cancel_left h

theorem suffixedName_inj {base : FName} {a b : Nat}
    (h : suffixedName base a = suffixedName base b) : a = b := by
  unfold suffixedName at h
  have h2 := List.append_cancel_left h
  have h3 : pad5 a ++ ("_.safetensors").data = pad5 b ++ ("_.safetensors").data := by
    injection h2
  exact pad5_inj (List.append_cancel_right h3)

theorem fsExists_joinPath (listing : List FName) (dir nm : FName) :
    fsExists listing dir (joinPath dir nm) = true ↔ nm ∈ listing := by
  simp only [fsExists, List.any_eq_true, beq_iff_eq]
  constructor
  · rintro ⟨x, hx, he⟩
    exact joinPath_inj he ▸ hx
  · intro h
    exact ⟨nm, h, rfl⟩

/-! ### Probe-loop lemmas -/

theorem probeLoop_some (listing : List FName) (dir base : FName) :
    ∀ fuel n p, probeLoop listing dir base n fuel = some p →
      ∃ d, p = build_suffixed_path dir base (n + d) ∧
        fsExists listing dir p = false ∧
        ∀ k, k < d → fsExists listing dir (build_suffixed_path dir base (n + k)) = true := by
  intro fuel
  induction fuel with
  | zero => intro n p h; simp [probeLoop] at h
  | succ fuel ih =>
    intro n p h
    simp only [probeLoop] at h
    by_cases he : fsExists listing dir (build_suffixed_path dir base n) = true
    · rw [if_pos he] at h
      obtain ⟨d, hp, hfree, hall⟩ := ih (n + 1) p h
      have hac : n + 1 + d = n + (d + 1) := by omega
      rw [hac] at hp
      refine ⟨d + 1, hp, hfree, ?_⟩
      intro k hk
      rcases Nat.eq_zero_or_pos k with rfl | hkpos
      · simpa using he
      · have := hall (k - 1) (by omega)
        have hac2 : n + 1 + (k - 1) = n + k := by omega
        rwa [hac2] at this
    · rw [if_neg he] at h
      have hp : build_suffixed_path dir base n = p := by injection h
      subst hp
      refine ⟨0, by simp, ?_, by omega⟩
      simpa using he

theorem probeLoop_none (listing : List FName) (dir base : FName) :
    ∀ fuel n, probeLoop listing dir base n fuel = none →
      ∀ k, k < fuel → fsExists listing dir (build_suffixed_path dir base (n + k)) = true := by
  intro fuel
  induction fuel with
  | zero => omega
  | succ fuel ih =>
    intro n h k hk
    simp only [probeLoop] at h
    by_cases he : fsExists listing dir (build_suffixed_path dir base n) = true
    · rw [if_pos he] at h
      rcases Nat.eq_zero_or_pos k with rfl | hkpos
      · simpa using he
      · have := ih (n + 1) h (k - 1) (by omega)
        have hac : n + 1 + (k - 1) = n + k := by omega
        rwa [hac] at this
    · rw [if_neg he] at h
      exact absurd h (by simp)

theorem probeLoop_total (listing : List FName) (dir base : FName) (n fuel : Nat)
    (hfuel : listing.length < fuel) :
    probeLoop listing dir base n fuel ≠ none := by
  intro hnone
  have hall := probeLoop_none listing dir base fuel n hnone
  have hmem : ∀ k, k < fuel → suffixedName base (n + k) ∈ listing := by
    intro k hk
    have := hall k hk
    rwa [build_suffixed_path, fsExists_joinPath] at this
  have hinj : Function.Injective (fun k : Nat => suffixedName base (n + k)) := by
    intro a b hab
    have := suffixedName_inj hab
    omega
  have hnodup : ((List.range fuel).map (fun k => suffixedName base (n + k))).Nodup :=
    (List.nodup_range fuel).map hinj
  have hsub : ((List.range fuel).map (fun k => suffixedName base (n + k))) ⊆ listing := by
    intro x hx
    simp only [List.mem_map, List.mem_range] at hx
    obtain ⟨k, hk, rfl⟩ := hx
    exact hmem k hk
  have hle := (List.subperm_of_subset hnodup hsub).length_le
  simp only [List.length_map, List.length_range] at hle
  omega

/-! ### Scan-fold lemmas -/

theorem match_step_some {base name : FName} {m : Nat}
    (hx : matchedSuffix base name = some m) (acc : Nat) :
    match_step base acc name = max acc m := by
  simp [match_step, hx]

theorem match_step_none {base name : FName}
    (hx : matchedSuffix base name = none) (acc : Nat) :
    match_step base acc name = acc := by
  simp [match_step, hx]

/-- On a matching name the scan step is `max acc (m + 1)`, otherwise `acc`. -/
theorem scan_step_some {base name : FName} {m : Nat}
    (hx : matchedSuffix base name = some m) (acc : Nat) :
    scan_step base acc name = max acc (m + 1) := by
  unfold scan_step
  unfold matchedSuffix at hx
  by_cases hpre : ((base ++ ['_']).isPrefixOf name
      && ("_.safetensors").data.isSuffixOf name) = true
  · rw [if_pos hpre]
    rw [if_pos hpre] at hx
    set middle := (name.drop (base.length + 1)).take
      (name.length - 13 - (base.length + 1)) with hm
    by_cases h2 : (!middle.isEmpty && middle.all Char.isDigit) = true
    · simp only [if_pos h2] at hx ⊢
      have hv : digitsVal middle = m := by
        injection hx
      subst hv
      by_cases h3 : acc ≤ digitsVal middle
      · rw [if_pos h3, Nat.max_eq_right (by omega)]
      · rw [if_neg h3, Nat.max_eq_left (by omega)]
    · rw [if_neg h2] at hx
      exact absurd hx (by simp)
  · rw [if_neg hpre] at hx
    exact absurd hx (by simp)

theorem scan_step_none {base name : FName}
    (hx : matchedSuffix base name = none) (acc : Nat) :
    scan_step base acc name = acc := by
  unfold scan_step
  unfold matchedSuffix at hx
  by_cases hpre : ((base ++ ['_']).isPrefixOf name
      && ("_.safetensors").data.isSuffixOf name) = true
  · rw [if_pos hpre]
    rw [if_pos hpre] at hx
    set middle := (name.drop (base.length + 1)).take
      (name.length - 13 - (base.length + 1)) with hm
    by_cases h2 : (!middle.isEmpty && middle.all Char.isDigit) = true
    · rw [if_pos h2] at hx
      exact absurd hx (by simp)
    · rw [if_neg h2]
  · rw [if_neg hpre]

/-- The fold computing `maxMatched` extracts `max` from its initial value. -/
theorem maxMatched_foldl_init (base : FName) :
    ∀ (L : List FName) (a b : Nat),
      L.foldl (match_step base) (max a b)
      = max a (L.foldl (match_step base) b) := by
  intro L
  induction L with
  | nil => intro a b; rfl
  | cons x L ih =>
    intro a b
    simp only [List.foldl_cons]
    cases hx : matchedSuffix base x with
    | none => rw [match_step_none hx, match_step_none hx]; exact ih a b
    | some m =>
      rw [match_step_some hx, match_step_some hx, Nat.max_assoc]
      exact ih a (max b m)

theorem maxMatched_cons_some {base x : FName} {m : Nat} (L : List FName)
    (hx : matchedSuffix base x = some m) :
    maxMatched (x :: L) base = max m (maxMatched L base) := by
  simp only [maxMatched, List.foldl_cons, match_step_some hx, Nat.zero_max]
  have := maxMatched_foldl_init base L m 0
  rwa [Nat.max_zero] at this

theorem maxMatched_cons_none {base x : FName} (L : List FName)
    (hx : matchedSuffix base x = none) :
    maxMatched (x :: L) base = maxMatched L base := by
  simp only [maxMatched, List.foldl_cons, match_step_none hx]

theorem foldl_scan_step (base : FName) :
    ∀ (L : List FName) (a : Nat), 1 ≤ a →
      L.foldl (scan_step base) a = max a (maxMatched L base + 1) := by
  intro L
  induction L with
  | nil =>
    intro a ha
    simp only [List.foldl_nil, maxMatched, List.foldl_nil]
    rw [Nat.max_eq_left ha]
  | cons x L ih =>
    intro a ha
    simp only [List.foldl_cons]
    cases hx : matchedSuffix base x with
    | none =>
      rw [scan_step_none hx, maxMatched_cons_none L hx]
      exact ih a ha
    | some m =>
      rw [scan_step_some hx, maxMatched_cons_some L hx,
        ih (max a (m + 1)) (le_trans ha (Nat.le_max_left _ _))]
      have hsucc : max m (maxMatched L base) + 1
          = max (m + 1) (maxMatched L base + 1) := by
        rcases Nat.le_total m (maxMatched L base) with h | h
        · rw [Nat.max_eq_right h, Nat.max_eq_right (by omega)]
        · rw [Nat.max_eq_left h, Nat.max_eq_left (by omega)]
      rw [hsucc, ← Nat.max_assoc]

theorem next_suffix_eq_maxMatched (listing : List FName) (base : FName) :
    next_suffix_from_dir listing base = maxMatched listing base + 1 := by
  rw [next_suffix_from_dir, foldl_scan_step base listing 1 (by omega)]
  exact Nat.max_eq_right (by omega)

theorem matched_le_maxMatched (base : FName) :
    ∀ (L : List FName) (name : FName) (m : Nat),
      name ∈ L → matchedSuffix base name = some m → m ≤ maxMatched L base := by
  intro L
  induction L with
  | nil => intro name m h; simp at h
  | cons x L ih =>
    intro name m hmem hmatch
    rcases List.mem_cons.mp hmem with rfl | hmem2
    · rw [maxMatched_cons_some L hmatch]
      exact Nat.le_max_left _ _
    · have hle := ih name m hmem2 hmatch
      cases hx : matchedSuffix base x with
      | none => rwa [maxMatched_cons_none L hx]
      | some m' =>
        rw [maxMatched_cons_some L hx]
        exact le_trans hle (Nat.le_max_right _ _)

theorem maxMatched_exact (base : FName) :
    ∀ L : List FName, maxMatched L base = 0 ∨
      ∃ name ∈ L, matchedSuffix base name = some (maxMatched L base) := by
  intro L
  induction L with
  | nil => left; rfl
  | cons x L ih =>
    cases hx : matchedSuffix base x with
    | none =>
      rw [maxMatched_cons_none L hx]
      rcases ih with h0 | ⟨name, hmem, hm⟩
      · left; exact h0
      · right; exact ⟨name, List.mem_cons_of_mem x hmem, hm⟩
    | some m =>
      rw [maxMatched_cons_some L hx]
      by_cases hle : maxMatched L base ≤ m
      · right
        refine ⟨x, List.mem_cons_self x L, ?_⟩
        rw [hx, Nat.max_eq_left hle]
      · rcases ih with h0 | ⟨name, hmem, hm⟩
        · omega
        · right
          refine ⟨name, List.mem_cons_of_mem x hmem, ?_⟩
          rw [hm, Nat.max_eq_right (by omega)]

theorem maxMatched_mono (base : FName) (L₁ L₂ : List FName) (hsub : L₁ ⊆ L₂) :
    maxMatched L₁ base ≤ maxMatched L₂ base := by
  rcases maxMatched_exact base L₁ with h0 | ⟨name, hmem, hm⟩
  · omega
  · exact matched_le_maxMatched base L₂ name _ (hsub hmem) hm

/-! ### The textual pattern recognised by the scan -/

theorem isPrefixOf_self_append (l t : List Char) : l.isPrefixOf (l ++ t) = true := by
  induction l with
  | nil => cases t <;> rfl
  | cons c l ih => simp [List.isPrefixOf, ih]

theorem isSuffixOf_append (t X : List Char) : t.isSuffixOf (X ++ t) = true := by
  simp only [List.isSuffixOf, List.reverse_append]
  exact isPrefixOf_self_append _ _

theorem safetensorsTail_length : ("_.safetensors").data.length = 13 := by decide

/-- Soundness half of the pattern characterisation: a name of the shape
`base ++ "_" ++ ds ++ "_.safetensors"` with `ds` a non-empty digit run is
matched by the scan, with value `int(ds)`. -/
theorem matchedSuffix_pattern (base ds : FName) (hne : ds ≠ [])
    (hdig : ds.all Char.isDigit = true) :
    matchedSuffix base ((base ++ ['_']) ++ ds ++ ("_.safetensors").data)
      = some (digitsVal ds) := by
  unfold matchedSuffix
  have hpre : (base ++ ['_']).isPrefixOf
      ((base ++ ['_']) ++ ds ++ ("_.safetensors").data) = true := by
    rw [List.append_assoc]
    exact isPrefixOf_self_append _ _
  have hsuf : ("_.safetensors").data.isSuffixOf
      ((base ++ ['_']) ++ ds ++ ("_.safetensors").data) = true :=
    isSuffixOf_append _ _
  rw [if_pos (by rw [hpre, hsuf]; rfl)]
  have hlenA : (base ++ ['_']).length = base.length + 1 := by simp
  have hdrop : ((base ++ ['_']) ++ ds ++ ("_.safetensors").data).drop (base.length + 1)
      = ds ++ ("_.safetensors").data := by
    rw [List.append_assoc]
    exact List.drop_left' hlenA
  have hcount : ((base ++ ['_']) ++ ds ++ ("_.safetensors").data).length - 13
      - (base.length + 1) = ds.length := by
    simp only [List.length_append, List.length_cons, List.length_nil, safetensorsTail_length]
    omega
  have htake : (ds ++ ("_.safetensors").data).take ds.length = ds :=
    List.take_left ds _
  rw [hdrop, hcount, htake]
  have hempty : ds.isEmpty = false := by
    cases ds with
    | nil => exact absurd rfl hne
    | cons c l => rfl
  rw [if_pos (by rw [hempty, hdig]; rfl)]

/-- Completeness half: anything the scan matches has exactly that shape. -/
theorem matchedSuffix_pattern_of_some (base name : FName) (m : Nat)
    (h : matchedSuffix base name = some m) :
    ∃ ds : FName, name = (base ++ ['_']) ++ ds ++ ("_.safetensors").data
      ∧ ds ≠ [] ∧ ds.all Char.isDigit = true ∧ digitsVal ds = m := by
  unfold matchedSuffix at h
  by_cases hpre : ((base ++ ['_']).isPrefixOf name
      && ("_.safetensors").data.isSuffixOf name) = true
  · rw [if_pos hpre] at h
    have hb := hpre
    simp only [Bool.and_eq_true] at hb
    have hpre1 : (base ++ ['_']).isPrefixOf name = true := hb.1
    have hsuf1 : ("_.safetensors").data.isSuffixOf name = true := hb.2
    obtain ⟨rest, hrest⟩ : ∃ rest, (base ++ ['_']) ++ rest = name := by
      have := List.isPrefixOf_iff_prefix.mp hpre1
      exact this
    obtain ⟨s, hs⟩ : ∃ s, s ++ ("_.safetensors").data = name := by
      have := List.isSuffixOf_iff_suffix.mp hsuf1
      exact this
    set middle := (name.drop (base.length + 1)).take
      (name.length - 13 - (base.length + 1)) with hmdef
    by_cases h2 : (!middle.isEmpty && middle.all Char.isDigit) = true
    · rw [if_pos h2] at h
      have hv : digitsVal middle = m := by injection h
      have hb2 := h2
      simp only [Bool.and_eq_true, Bool.not_eq_true'] at hb2
      have hMne : middle.isEmpty = false := hb2.1
      have hMdig : middle.all Char.isDigit = true := hb2.2
      -- length bookkeeping
      have hlname : name.length = base.length + 1 + rest.length := by
        rw [← hrest]
        simp only [List.length_append, List.length_cons, List.length_nil]
      have hlname2 : name.length = s.length + 13 := by
        rw [← hs]; simp [safetensorsTail_length]
      have hMlen : 0 < name.length - 13 - (base.length + 1) := by
        by_contra hz
        have : name.length - 13 - (base.length + 1) = 0 := by omega
        have hmn : middle = [] := by
          rw [hmdef, this, List.take_zero]
        rw [hmn] at hMne
        simp [List.isEmpty] at hMne
      -- rest = ds ++ tail with ds := s.drop (base.length + 1)
      have hsl : base.length + 1 ≤ s.length := by omega
      have hdropname : name.drop (base.length + 1) = rest := by
        rw [← hrest]
        exact List.drop_left' (by simp)
      have hdropname2 : name.drop (base.length + 1)
          = s.drop (base.length + 1) ++ ("_.safetensors").data := by
        rw [← hs, List.drop_append_eq_append_drop,
          show base.length + 1 - s.length = 0 by omega, List.drop_zero]
      have hdslen : (s.drop (base.length + 1)).length
          = name.length - 13 - (base.length + 1) := by
        simp only [List.length_drop]
        omega
      have hmid : middle = s.drop (base.length + 1) := by
        rw [hmdef, hdropname2, ← hdslen]
        exact List.take_left _ _
      refine ⟨s.drop (base.length + 1), ?_, ?_, ?_, ?_⟩
      · rw [← hrest, ← hdropname, hdropname2]
        simp [List.append_assoc]
      · intro hnil
        rw [hmid, hnil] at hMne
        simp [List.isEmpty] at hMne
      · rwa [hmid] at hMdig
      · rw [← hmid, hv]
    · rw [if_neg h2] at h
      exact absurd h (by simp)
  · rw [if_neg hpre] at h
    exact absurd h (by simp)

theorem matchedSuffix_eq_some_iff (base name : FName) (m : Nat) :
    matchedSuffix base name = some m ↔
      ∃ ds : FName, name = (base ++ ['_']) ++ ds ++ ("_.safetensors").data
        ∧ ds ≠ [] ∧ ds.all Char.isDigit = true ∧ digitsVal ds = m := by
  constructor
  · exact matchedSuffix_pattern_of_some base name m
  · rintro ⟨ds, rfl, hne, hdig, rfl⟩
    exact matchedSuffix_pattern base ds hne hdig

/-- The selector's own suffixed output is recognised by its own scan, with
the same number. -/
theorem matchedSuffix_suffixedName (base : FName) (n : Nat) :
    matchedSuffix base (suffixedName base n) = some n := by
  have hshape : suffixedName base n
      = (base ++ ['_']) ++ pad5 n ++ ("_.safetensors").data := by
    simp [suffixedName]
  rw [hshape, matchedSuffix_pattern base (pad5 n) (pad5_ne_nil n) (pad5_all_digits n),
    digitsVal_pad5]

/-! ### Claim theorems: filename selection -/

/-- C7: in `no_counter_overwrite` mode the Filename Selector returns the
unsuffixed path `dir/base.safetensors` for every directory content (whether
or not that path exists there) and for every probe fuel, hence also across
arbitrarily many repeated calls (the selector is a pure function of the
directory state). -/
theorem no_counter_overwrite_always_unsuffixed (listing : List FName)
    (dir base : FName) (fuel : Nat) :
    choose_ckpt_path listing dir base ("no_counter_overwrite").data fuel
      = some (build_unsuffixed_path dir base)
    ∧ choose_ckpt_pathD listing dir base ("no_counter_overwrite").data
      = build_unsuffixed_path dir base := by
  constructor
  · simp [choose_ckpt_path]
  · simp [choose_ckpt_pathD, choose_ckpt_path]

/-- C8: in `smart_counter` mode, if the unsuffixed path is free it is
returned; otherwise the selector returns the suffixed path of the smallest
integer `n ≥ maxMatched + 1` whose path does not exist (probing upward one
integer at a time; the scan start is exactly `maxMatched + 1`, which is 1
when no suffixed files exist since `maxMatched` is then 0); the returned
suffix is never one already present (its path does not exist) and exceeds
every suffix present; and against any larger (non-shrunk) directory the
selected suffix does not decrease. -/
theorem smart_counter_spec (listing : List FName) (dir base : FName) :
    (fsExists listing dir (build_unsuffixed_path dir base) = false →
      choose_ckpt_pathD listing dir base ("smart_counter").data
        = build_unsuffixed_path dir base)
    ∧ (fsExists listing dir (build_unsuffixed_path dir base) = true →
      ∃ n, choose_ckpt_pathD listing dir base ("smart_counter").data
          = build_suffixed_path dir base n
        ∧ fsExists listing dir (build_suffixed_path dir base n) = false
        ∧ next_suffix_from_dir listing base = maxMatched listing base + 1
        ∧ maxMatched listing base + 1 ≤ n
        ∧ (∀ k, maxMatched listing base + 1 ≤ k → k < n →
            fsExists listing dir (build_suffixed_path dir base k) = true)
        ∧ (∀ name m, name ∈ listing → matchedSuffix base name = some m → m < n)
        ∧ (∀ listing₂ : List FName, listing ⊆ listing₂ →
            ∃ n₂, choose_ckpt_pathD listing₂ dir base ("smart_counter").data
                = build_suffixed_path dir base n₂ ∧ n ≤ n₂)) := by
  have hmode : ¬ (("smart_counter").data = ("no_counter_overwrite").data) := by decide
  -- helper: in smart mode with the unsuffixed path taken, the result is the
  -- first free suffix at or after the scan start
  have main : ∀ L : List FName, fsExists L dir (build_unsuffixed_path dir base) = true →
      ∃ d, choose_ckpt_pathD L dir base ("smart_counter").data
          = build_suffixed_path dir base (next_suffix_from_dir L base + d)
        ∧ fsExists L dir
            (build_suffixed_path dir base (next_suffix_from_dir L base + d)) = false
        ∧ ∀ k, k < d →
            fsExists L dir
              (build_suffixed_path dir base (next_suffix_from_dir L base + k)) = true := by
    intro L hL
    have htot := probeLoop_total L dir base (next_suffix_from_dir L base)
      (L.length + 1) (by omega)
    cases hres : probeLoop L dir base (next_suffix_from_dir L base) (L.length + 1) with
    | none => exact absurd hres htot
    | some p =>
      obtain ⟨d, hp, hfree, hall⟩ := probeLoop_some L dir base _ _ p hres
      refine ⟨d, ?_, hp ▸ hfree, hall⟩
      rw [choose_ckpt_pathD, choose_ckpt_path]
      rw [if_neg hmode, if_neg (by rw [hL]; simp), hres, Option.getD_some, hp]
  constructor
  · intro h
    rw [choose_ckpt_pathD, choose_ckpt_path]
    rw [if_neg hmode, if_pos h, Option.getD_some]
  · intro h
    obtain ⟨d, hpath, hfree, hall⟩ := main listing h
    refine ⟨next_suffix_from_dir listing base + d, hpath, hfree,
      next_suffix_eq_maxMatched listing base, ?_, ?_, ?_, ?_⟩
    · rw [← next_suffix_eq_maxMatched]; omega
    · intro k hk1 hk2
      rw [← next_suffix_eq_maxMatched] at hk1
      have := hall (k - next_suffix_from_dir listing base) (by omega)
      have hke : next_suffix_from_dir listing base
          + (k - next_suffix_from_dir listing base) = k := by omega
      rwa [hke] at this
    · intro name m hmem hmatch
      have h1 := matched_le_maxMatched base listing name m hmem hmatch
      have h2 := next_suffix_eq_maxMatched listing base
      omega
    · intro listing₂ hsub
      have hL₂ : fsExists listing₂ dir (build_unsuffixed_path dir base) = true := by
        rw [build_unsuffixed_path, fsExists_joinPath] at h ⊢
        exact hsub h
      obtain ⟨d₂, hpath₂, hfree₂, hall₂⟩ := main listing₂ hL₂
      refine ⟨next_suffix_from_dir listing₂ base + d₂, hpath₂, ?_⟩
      by_contra hlt
      push_neg at hlt
      set n := next_suffix_from_dir listing base + d with hn
      set n₂ := next_suffix_from_dir listing₂ base + d₂ with hn₂
      have hstart : next_suffix_from_dir listing base ≤ next_suffix_from_dir listing₂ base := by
        rw [next_suffix_eq_maxMatched, next_suffix_eq_maxMatched]
        have := maxMatched_mono base listing listing₂ hsub
        omega
      -- n₂ < n and n₂ ≥ start₁, so the probe in `listing` saw n₂ occupied
      have hocc : fsExists listing dir (build_suffixed_path dir base n₂) = true := by
        have := hall (n₂ - next_suffix_from_dir listing base) (by omega)
        have hke : next_suffix_from_dir listing base
            + (n₂ - next_suffix_from_dir listing base) = n₂ := by omega
        rwa [hke] at this
      rw [build_suffixed_path, fsExists_joinPath] at hocc
      have : fsExists listing₂ dir (build_suffixed_path dir base n₂) = true := by
        rw [build_suffixed_path, fsExists_joinPath]
        exact hsub hocc
      rw [this] at hfree₂
      exact absurd hfree₂ (by simp)

/-- Witness for C8: with `m.safetensors` taken and suffixes 00001–00005
present, the selector picks a fresh suffix at least 6 (in fact 00006). -/
theorem smart_counter_spec_witness :
    ∃ n, choose_ckpt_pathD
        [("m.safetensors").data, ("m_00001_.safetensors").data,
         ("m_00002_.safetensors").data, ("m_00003_.safetensors").data,
         ("m_00004_.safetensors").data, ("m_00005_.safetensors").data]
        ("o").data ("m").data ("smart_counter").data
      = build_suffixed_path ("o").data ("m").data n
      ∧ 6 ≤ n ∧ fsExists
        [("m.safetensors").data, ("m_00001_.safetensors").data,
         ("m_00002_.safetensors").data, ("m_00003_.safetensors").data,
         ("m_00004_.safetensors").data, ("m_00005_.safetensors").data]
        ("o").data (build_suffixed_path ("o").data ("m").data n) = false := by
  obtain ⟨n, h1, h2, h3, h4, -, -, -⟩ :=
    (smart_counter_spec
      [("m.safetensors").data, ("m_00001_.safetensors").data,
       ("m_00002_.safetensors").data, ("m_00003_.safetensors").data,
       ("m_00004_.safetensors").data, ("m_00005_.safetensors").data]
      ("o").data ("m").data).2 (by decide)
  refine ⟨n, h1, ?_, h2⟩
  have hmax : maxMatched
      [("m.safetensors").data, ("m_00001_.safetensors").data,
       ("m_00002_.safetensors").data, ("m_00003_.safetensors").data,
       ("m_00004_.safetensors").data, ("m_00005_.safetensors").data]
      ("m").data = 5 := by decide
  omega

/-- C9 counterexample: the entry `m_123456_.safetensors` has a six-digit
run (not exactly five), yet it does contribute to the scan: the next
suffix becomes 123457, not 1.  Also, for n = 100000 the selector's own
suffixed output has a six-digit field, not five. -/
theorem scan_digit_run_counterexample :
    matchedSuffix ("m").data ("m_123456_.safetensors").data = some 123456
    ∧ next_suffix_from_dir [("m_123456_.safetensors").data] ("m").data = 123457
    ∧ ¬ next_suffix_from_dir [("m_123456_.safetensors").data] ("m").data = 1
    ∧ (pad5 100000).length = 6 := by
  refine ⟨by decide, by decide, by decide, by decide⟩

/-- C9 (amended): the scan considers exactly the entries of textual shape
`base ++ "_" ++ ds ++ "_.safetensors"` where `ds` is ANY non-empty run of
decimal digits (not necessarily five), each contributing `int(ds)`; the
next suffix is the maximum contribution plus one; and the selector's own
suffixed output follows the zero-padded pattern with a minimum field width
of five — exactly five digits whenever `n < 100000` — and is itself
recognised by the scan with value `n`. -/
theorem scan_pattern_amended (base name : FName) (listing : List FName) (n m : Nat) :
    (matchedSuffix base name = some m ↔
      ∃ ds : FName, name = (base ++ ['_']) ++ ds ++ ("_.safetensors").data
        ∧ ds ≠ [] ∧ ds.all Char.isDigit = true ∧ digitsVal ds = m)
    ∧ next_suffix_from_dir listing base = maxMatched listing base + 1
    ∧ suffixedName base n = (base ++ ['_']) ++ pad5 n ++ ("_.safetensors").data
    ∧ (pad5 n).all Char.isDigit = true
    ∧ digitsVal (pad5 n) = n
    ∧ (n < 100000 → (pad5 n).length = 5)
    ∧ matchedSuffix base (suffixedName base n) = some n := by
  refine ⟨matchedSuffix_eq_some_iff base name m,
    next_suffix_eq_maxMatched listing base, by simp [suffixedName],
    pad5_all_digits n, digitsVal_pad5 n, pad5_length n,
    matchedSuffix_suffixedName base n⟩

/-- Witness for the amended C9 at concrete inputs. -/
theorem scan_pattern_amended_witness :
    matchedSuffix ("m").data ("m_00007_.safetensors").data = some 7
    ∧ (pad5 7).length = 5 := by
  have h := scan_pattern_amended ("m").data ("m_00007_.safetensors").data [] 7 7
  refine ⟨?_, h.2.2.2.2.2.1 (by omega)⟩
  exact h.1.mpr ⟨("00007").data, by decide, by decide, by decide, by decide⟩

/-! ### Dictionary lemmas -/

/-- Well-formed dictionary representation: pairwise distinct keys (the
invariant of every host dict). -/
def dWF {β : Type} (d : List (FName × β)) : Prop :=
  d.Pairwise (fun a b => a.1 ≠ b.1)

theorem dGet_dSet {β : Type} (d : List (FName × β)) (k k' : FName) (v : β) :
    dGet (dSet d k v) k' = if k' = k then some v else dGet d k' := by
  induction d with
  | nil =>
    simp only [dSet, dGet]
    by_cases h : k' = k
    · rw [if_pos h.symm, if_pos h]
    · rw [if_neg (fun hh : k = k' => h hh.symm), if_neg h]
  | cons kv rest ih =>
    by_cases h1 : kv.1 = k
    · simp only [dSet, if_pos h1]
      by_cases h2 : k' = k
      · simp [dGet, h2]
      · simp only [dGet, if_neg h2]
        rw [if_neg (fun hh : k = k' => h2 hh.symm),
          if_neg (fun hh : kv.1 = k' => h2 (h1.symm.trans hh).symm)]
    · simp only [dSet, if_neg h1]
      by_cases h2 : kv.1 = k'
      · have hne : ¬ k' = k := fun hh => h1 (h2.trans hh)
        simp only [dGet, if_pos h2, if_neg hne]
      · simp only [dGet, if_neg h2, ih]

theorem mem_dSet {β : Type} {d : List (FName × β)} {k : FName} {v : β}
    {kv : FName × β} (h : kv ∈ dSet d k v) : kv ∈ d ∨ kv = (k, v) := by
  induction d with
  | nil =>
    simp [dSet] at h
    right; exact h
  | cons kv0 rest ih =>
    by_cases h1 : kv0.1 = k
    · rw [dSet, if_pos h1] at h
      rcases List.mem_cons.mp h with rfl | h2
      · right; rfl
      · left; exact List.mem_cons_of_mem _ h2
    · rw [dSet, if_neg h1] at h
      rcases List.mem_cons.mp h with rfl | h2
      · left; exact List.mem_cons_self _ _
      · rcases ih h2 with h3 | h3
        · left; exact List.mem_cons_of_mem _ h3
        · right; exact h3

theorem mem_dUpdate {b e : List (FName × FName)} {kv : FName × FName}
    (h : kv ∈ dUpdate b e) : kv ∈ b ∨ kv ∈ e := by
  induction e generalizing b with
  | nil => left; exact h
  | cons kv0 e' ih =>
    rcases ih h with h2 | h2
    · rcases mem_dSet h2 with h3 | h3
      · left; exact h3
      · right
        rw [h3]
        exact List.mem_cons_self _ _
    · right; exact List.mem_cons_of_mem _ h2

theorem dGet_dUpdate_not_key {b e : List (FName × FName)} {k : FName}
    (h : ∀ kv ∈ e, kv.1 ≠ k) : dGet (dUpdate b e) k = dGet b k := by
  induction e generalizing b with
  | nil => rfl
  | cons kv0 e' ih =>
    have := ih (b := dSet b kv0.1 kv0.2) (fun kv hkv => h kv (List.mem_cons_of_mem _ hkv))
    rw [dUpdate] at this ⊢
    simp only [List.foldl_cons] at this ⊢
    rw [this, dGet_dSet,
      if_neg (fun hh => h kv0 (List.mem_cons_self _ _) hh.symm)]

theorem dGet_dUpdate_of_get {b e : List (FName × FName)} {k : FName} {v : FName}
    (hwf : dWF e) (h : dGet e k = some v) : dGet (dUpdate b e) k = some v := by
  induction e generalizing b with
  | nil => simp [dGet] at h
  | cons kv0 e' ih =>
    rw [dWF, List.pairwise_cons] at hwf
    by_cases h1 : kv0.1 = k
    · rw [dGet, if_pos h1] at h
      have hnk : ∀ kv ∈ e', kv.1 ≠ k := fun kv hkv => by
        intro hh
        exact (hwf.1 kv hkv) (h1.trans hh.symm)
      rw [dUpdate, List.foldl_cons, ← dUpdate, dGet_dUpdate_not_key hnk,
        dGet_dSet, if_pos h1.symm, ← h]
    · rw [dGet, if_neg h1] at h
      rw [dUpdate, List.foldl_cons, ← dUpdate]
      exact ih hwf.2 h

theorem dUpdate_cons_not_key {e : List (FName × FName)} {k : FName} {v : FName}
    (h : ∀ kv ∈ e, kv.1 ≠ k) (b : List (FName × FName)) :
    dUpdate ((k, v) :: b) e = (k, v) :: dUpdate b e := by
  induction e generalizing b v with
  | nil => rfl
  | cons kv0 e' ih =>
    have hk0 : ¬ ((k, v).1 = kv0.1) :=
      fun hh => (h kv0 (List.mem_cons_self _ _)) hh.symm
    have hstep : dSet ((k, v) :: b) kv0.1 kv0.2 = (k, v) :: dSet b kv0.1 kv0.2 := by
      rw [dSet, if_neg hk0]
    have hih := ih (v := v) (fun kv hkv => h kv (List.mem_cons_of_mem _ hkv))
      (dSet b kv0.1 kv0.2)
    simp only [dUpdate, List.foldl_cons] at hih ⊢
    rw [hstep, hih]

theorem dUpdate_nil_of_wf {e : List (FName × FName)} (hwf : dWF e) :
    dUpdate [] e = e := by
  induction e with
  | nil => rfl
  | cons kv0 e' ih =>
    rw [dWF, List.pairwise_cons] at hwf
    rw [dUpdate, List.foldl_cons, ← dUpdate]
    have hset : dSet ([] : List (FName × FName)) kv0.1 kv0.2 = [(kv0.1, kv0.2)] := rfl
    rw [hset, show ((kv0.1, kv0.2) : FName × FName) = kv0 by rfl,
      show (kv0 : FName × FName) = (kv0.1, kv0.2) by rfl,
      dUpdate_cons_not_key (fun kv hkv hh => (hwf.1 kv hkv) hh.symm),
      ih hwf.2]

theorem dGet_coercePairs (e : List (FName × Json)) (k : FName) :
    dGet (coercePairs e) k = (dGet e k).map coerceVal := by
  induction e with
  | nil => rfl
  | cons kv0 e' ih =>
    by_cases h1 : kv0.1 = k
    · simp [coercePairs, dGet, h1]
    · simp only [coercePairs, List.map_cons, dGet, if_neg h1]
      exact ih

theorem dWF_dSet {β : Type} {d : List (FName × β)} (h : dWF d) (k : FName) (v : β) :
    dWF (dSet d k v) := by
  induction d with
  | nil =>
    rw [dSet, dWF]
    simp
  | cons kv rest ih =>
    rw [dWF, List.pairwise_cons] at h
    by_cases h1 : kv.1 = k
    · rw [dSet, if_pos h1, dWF, List.pairwise_cons]
      refine ⟨fun b hb => ?_, h.2⟩
      exact h1 ▸ h.1 b hb
    · rw [dSet, if_neg h1, dWF, List.pairwise_cons]
      refine ⟨fun b hb => ?_, ih h.2⟩
      rcases mem_dSet hb with h2 | h2
      · exact h.1 b h2
      · rw [h2]; exact h1

theorem dWF_coercePairs {e : List (FName × Json)} (h : dWF e) :
    dWF (coercePairs e) := by
  rw [dWF, coercePairs, List.pairwise_map]
  exact h.imp (fun hab => hab)

/-! ### The parser produces well-formed (unique-key) objects -/

theorem parseObjectBody_wf : ∀ fuel s acc kvs r, dWF acc →
    parseObjectBody fuel s acc = .ok (kvs, r) → dWF kvs := by
  intro fuel
  induction fuel with
  | zero =>
    intro s acc kvs r hacc h
    simp [parseObjectBody] at h
  | succ fuel ih =>
    intro s acc kvs r hacc h
    unfold parseObjectBody at h
    iterate 10 (all_goals try split at h)
    all_goals try simp at h
    · exact ih _ _ _ _ (dWF_dSet hacc _ _) h
    · exact h.1 ▸ dWF_dSet hacc _ _

theorem parseNumber_not_obj : ∀ s kvs r, parseNumber s ≠ some (Json.obj kvs, r) := by
  intro s kvs r h
  unfold parseNumber at h
  simp only [] at h
  iterate 6 (all_goals try split at h)
  all_goals simp at h

theorem parseValue_obj_wf : ∀ fuel s kvs r,
    parseValue fuel s = .ok (.obj kvs, r) → dWF kvs := by
  intro fuel s kvs r h
  match fuel with
  | 0 => simp [parseValue] at h
  | fuel+1 =>
    unfold parseValue at h
    iterate 12 (all_goals try split at h)
    all_goals try simp at h
    · exact h.1.symm ▸ List.Pairwise.nil
    · rename_i p hbody
      exact h.1 ▸ parseObjectBody_wf fuel _ _ _ _ List.Pairwise.nil hbody
    · rename_i p heq
      exact absurd (h ▸ heq) (parseNumber_not_obj _ _ _)

theorem jsonParse_obj_wf {s : FName} {kvs : List (FName × Json)}
    (h : jsonParse s = .ok (.obj kvs)) : dWF kvs := by
  unfold jsonParse at h
  split at h
  · simp at h
  · rename_i p heq
    split at h
    · simp only [Except.ok.injEq] at h
      refine parseValue_obj_wf (s.length + 1) s kvs p.2 ?_
      rw [heq, ← h]
    · simp at h

theorem parse_user_meta_ok_wf {mj : FName} {um : List (FName × FName)}
    (h : parse_user_meta mj = .ok um) : dWF um := by
  unfold parse_user_meta at h
  split at h
  · simp only [Except.ok.injEq] at h
    exact h ▸ List.Pairwise.nil
  · cases hj : jsonParse mj with
    | error e => rw [hj] at h; simp at h
    | ok v =>
      rw [hj] at h
      cases v with
      | null =>
        simp only [coerce_metadata, Except.ok.injEq] at h
        exact h ▸ List.Pairwise.nil
      | obj kvs =>
        simp only [coerce_metadata, Except.ok.injEq] at h
        exact h ▸ dWF_coercePairs (jsonParse_obj_wf hj)
      | bool b => simp [coerce_metadata] at h
      | num n => simp [coerce_metadata] at h
      | str s2 => simp [coerce_metadata] at h
      | arr xs => simp [coerce_metadata] at h

/-! ### Supporting lemmas for the save path -/

theorem coerce_metadata_error (v : Json) (hnull : v ≠ .null)
    (hobj : ∀ kvs, v ≠ .obj kvs) :
    coerce_metadata v = .error .notObject := by
  cases v with
  | null => exact absurd rfl hnull
  | obj kvs => exact absurd rfl (hobj kvs)
  | bool b => rfl
  | num n => rfl
  | str s => rfl
  | arr xs => rfl

theorem base_metadata_not_merge (mode : FName) (h : ¬ mode = ("merge_minimal").data)
    (inc : Bool) (eff : Option FName) (extra : Option (List (FName × Json))) :
    base_metadata_of mode inc eff extra = ([], []) := by
  unfold base_metadata_of
  rw [if_neg h]

theorem mem_prompt_base {eff : Option FName} {kv : FName × FName}
    (h : kv ∈ prompt_base eff) : ∃ p, eff = some p ∧ kv = (("prompt").data, p) := by
  cases eff with
  | none => simp [prompt_base] at h
  | some p =>
    refine ⟨p, rfl, ?_⟩
    simpa [prompt_base, dSet] using h

theorem mem_base_metadata {mode : FName} {inc : Bool} {eff : Option FName}
    {extra : Option (List (FName × Json))} {kv : FName × FName}
    (h : kv ∈ (base_metadata_of mode inc eff extra).1) :
    (∃ p, eff = some p ∧ kv = (("prompt").data, p))
    ∨ (∃ exl kv0, extra = some exl ∧ kv0 ∈ exl ∧ kv = (kv0.1, coerceVal kv0.2)) := by
  unfold base_metadata_of at h
  split at h
  · cases hex : extra with
    | none =>
      rw [hex] at h
      cases inc
      all_goals left
      all_goals exact mem_prompt_base h
    | some exl =>
      rw [hex] at h
      cases inc with
      | false => left; exact mem_prompt_base h
      | true =>
        rcases mem_dUpdate h with h2 | h2
        · left; exact mem_prompt_base h2
        · right
          rcases List.mem_map.mp h2 with ⟨kv0, hkv0, hco⟩
          exact ⟨exl, kv0, rfl, hkv0, hco.symm⟩
  · simp at h

/-! ### Claim theorems: metadata -/

/-- C1 (amended): parsing of `metadata_json`.  Empty or whitespace-only
text yields the empty user metadata; a JSON parse failure makes `save`
fail with the `Invalid metadata_json` error carrying the parser's message;
a parsed JSON **object** yields its coerced pairs; a parsed JSON `null`
yields the empty user metadata (the host parser maps `null` to `None`,
for which `_coerce_metadata` returns an empty dict — no error, contrary
to the original claim); any other parsed JSON value (array, bool, number,
string) makes `save` fail with the not-an-object error. -/
theorem metadata_json_parse_spec (mj mode : FName) (inc : Bool) (po : FName)
    (pr : Json) (ex : Option (List (FName × Json))) (listing : List FName)
    (dir base fm : FName) :
    ((pyStrip mj).isEmpty = true → parse_user_meta mj = .ok [])
    ∧ (∀ e, (pyStrip mj).isEmpty = false → jsonParse mj = .error e →
        save mj mode inc po pr ex listing dir base fm = ([], .error (.invalidJson e)))
    ∧ (∀ kvs, (pyStrip mj).isEmpty = false → jsonParse mj = .ok (.obj kvs) →
        parse_user_meta mj = .ok (coercePairs kvs))
    ∧ ((pyStrip mj).isEmpty = false → jsonParse mj = .ok .null →
        parse_user_meta mj = .ok [])
    ∧ (∀ v, (pyStrip mj).isEmpty = false → jsonParse mj = .ok v →
        v ≠ .null → (∀ kvs, v ≠ .obj kvs) →
        save mj mode inc po pr ex listing dir base fm = ([], .error .notObject)) := by
  refine ⟨?_, ?_, ?_, ?_, ?_⟩
  · intro h
    rw [parse_user_meta, if_pos h]
  · intro e h1 h2
    rw [save, parse_user_meta, if_neg (by rw [h1]; exact Bool.false_ne_true), h2]
  · intro kvs h1 h2
    rw [parse_user_meta, if_neg (by rw [h1]; exact Bool.false_ne_true), h2]
    rfl
  · intro h1 h2
    rw [parse_user_meta, if_neg (by rw [h1]; exact Bool.false_ne_true), h2]
    rfl
  · intro v h1 h2 hnull hobj
    rw [save, parse_user_meta, if_neg (by rw [h1]; exact Bool.false_ne_true), h2]
    simp only [coerce_metadata_error v hnull hobj]

/-- Witness for C1 (amended) at concrete inputs. -/
theorem metadata_json_parse_spec_witness :
    parse_user_meta [] = .ok []
    ∧ save ("\x7bnot json").data ("replace").data false [] .null none []
        ("o").data ("m").data ("smart_counter").data
      = ([], .error (.invalidJson (("expecting property name").data)))
    ∧ parse_user_meta ("\x7b\"a\": 1\x7d").data
      = .ok (coercePairs [(['a'], .num 1)])
    ∧ parse_user_meta ("null").data = .ok []
    ∧ save ("[1]").data ("replace").data false [] .null none []
        ("o").data ("m").data ("smart_counter").data = ([], .error .notObject) := by
  have h1 := (metadata_json_parse_spec [] ("replace").data false [] .null none []
    ("o").data ("m").data ("smart_counter").data).1 (by decide)
  have h2 := (metadata_json_parse_spec ("\x7bnot json").data ("replace").data false []
    .null none [] ("o").data ("m").data ("smart_counter").data).2.1
    (("expecting property name").data) (by decide) (by rfl)
  have h3 := (metadata_json_parse_spec ("\x7b\"a\": 1\x7d").data ("replace").data false []
    .null none [] ("o").data ("m").data ("smart_counter").data).2.2.1
    [(['a'], .num 1)] (by decide) (by rfl)
  have h4 := (metadata_json_parse_spec ("null").data ("replace").data false []
    .null none [] ("o").data ("m").data ("smart_counter").data).2.2.2.1
    (by decide) (by rfl)
  have h5 := (metadata_json_parse_spec ("[1]").data ("replace").data false []
    .null none [] ("o").data ("m").data ("smart_counter").data).2.2.2.2
    (.arr [.num 1]) (by decide) (by rfl) (by simp) (by simp)
  exact ⟨h1, h2, h3, h4, h5⟩

/-- C1 counterexample: `metadata_json = "null"` parses to JSON `null`
(a scalar, not an object), yet `save` succeeds with empty user metadata
instead of failing with a `ConfigurationError` as the claim states. -/
theorem metadata_json_null_counterexample :
    jsonParse ("null").data = .ok .null
    ∧ (save ("null").data ("replace").data false [] .null none [] ("o").data
        ("m").data ("no_counter_overwrite").data).2
      = .ok { ckpt_path := ("o/m.safetensors").data, final_meta := [],
              saved_prompt := [], saved_extra := [] } := by
  exact ⟨rfl, rfl⟩

/-- C2: in `replace` mode the final mapping is exactly the coerced
`metadata_json` object, and is unchanged under any variation of
`prompt_override`, host prompt, `extra_pnginfo` and
`include_extra_pnginfo`. -/
theorem replace_mode_final (mj : FName) (um : List (FName × FName))
    (hu : parse_user_meta mj = .ok um)
    (inc inc' : Bool) (po po' : FName) (pr pr' : Json)
    (ex ex' : Option (List (FName × Json)))
    (listing : List FName) (dir base fm : FName) :
    ∃ out out',
      (save mj ("replace").data inc po pr ex listing dir base fm).2 = .ok out
      ∧ (save mj ("replace").data inc' po' pr' ex' listing dir base fm).2 = .ok out'
      ∧ out.final_meta = um ∧ out'.final_meta = um := by
  have hwf := parse_user_meta_ok_wf hu
  have hfinal : ∀ (inc2 : Bool) (po2 : FName) (pr2 : Json)
      (ex2 : Option (List (FName × Json))),
      (save mj ("replace").data inc2 po2 pr2 ex2 listing dir base fm).2
        = .ok { ckpt_path := choose_ckpt_pathD listing dir base fm
                final_meta := dUpdate (base_metadata_of ("replace").data inc2
                    (effective_prompt po2 pr2) ex2).1 um
                saved_prompt := (dGet (dUpdate (base_metadata_of ("replace").data inc2
                    (effective_prompt po2 pr2) ex2).1 um) ("prompt").data).getD []
                saved_extra := (base_metadata_of ("replace").data inc2
                    (effective_prompt po2 pr2) ex2).2 } := by
    intro inc2 po2 pr2 ex2
    rw [save, hu]
  have hmeta : ∀ (inc2 : Bool) (po2 : FName) (pr2 : Json)
      (ex2 : Option (List (FName × Json))),
      dUpdate (base_metadata_of ("replace").data inc2
        (effective_prompt po2 pr2) ex2).1 um = um := by
    intro inc2 po2 pr2 ex2
    rw [base_metadata_not_merge _ (by decide)]
    exact dUpdate_nil_of_wf hwf
  refine ⟨_, _, hfinal inc po pr ex, hfinal inc' po' pr' ex', ?_, ?_⟩
  · exact hmeta inc po pr ex
  · exact hmeta inc' po' pr' ex'

/-- Witness for C2 at concrete inputs: varying every prompt/extra input
leaves the final mapping equal to the coerced object. -/
theorem replace_mode_final_witness :
    ∃ out out',
      (save ("\x7b\"a\": 1\x7d").data ("replace").data false [] .null none []
        ("o").data ("m").data ("smart_counter").data).2 = .ok out
      ∧ (save ("\x7b\"a\": 1\x7d").data ("replace").data true ("override").data
          (.str ("host").data) (some [(("k").data, .num 2)]) []
          ("o").data ("m").data ("smart_counter").data).2 = .ok out'
      ∧ out.final_meta = [(['a'], ['1'])] ∧ out'.final_meta = [(['a'], ['1'])] :=
  replace_mode_final ("\x7b\"a\": 1\x7d").data [(['a'], ['1'])] (by rfl)
    false true [] ("override").data .null (.str ("host").data)
    none (some [(("k").data, .num 2)]) [] ("o").data ("m").data ("smart_counter").data

/-- C3: in `merge_minimal` mode, every key of the coerced `metadata_json`
object keeps its `metadata_json` value in the final mapping — in
particular any key also present in the base (prompt or extra-info) takes
the user value (user always wins). -/
theorem merge_user_wins (mj : FName) (um : List (FName × FName))
    (hu : parse_user_meta mj = .ok um) (k v : FName) (hk : dGet um k = some v)
    (inc : Bool) (po : FName) (pr : Json) (ex : Option (List (FName × Json)))
    (listing : List FName) (dir base fm : FName) :
    ∃ out,
      (save mj ("merge_minimal").data inc po pr ex listing dir base fm).2 = .ok out
      ∧ dGet out.final_meta k = some v := by
  have hwf := parse_user_meta_ok_wf hu
  refine ⟨_, by rw [save, hu], ?_⟩
  exact dGet_dUpdate_of_get hwf hk

/-- Witness for C3: both the prompt key and an extra-info key collide with
user metadata and the user values win. -/
theorem merge_user_wins_witness :
    ∃ out,
      (save ("\x7b\"prompt\": \"user\"\x7d").data ("merge_minimal").data true
        ("override").data .null (some [(("prompt").data, .str ("extra").data)]) []
        ("o").data ("m").data ("smart_counter").data).2 = .ok out
      ∧ dGet out.final_meta ("prompt").data = some (("user").data) :=
  merge_user_wins ("\x7b\"prompt\": \"user\"\x7d").data
    [(("prompt").data, ("user").data)] (by rfl) ("prompt").data ("user").data (by rfl)
    true ("override").data .null (some [(("prompt").data, .str ("extra").data)])
    [] ("o").data ("m").data ("smart_counter").data

/-- C4: every entry of the final mapping (either mode) is a string pair
originating from one of the three coercion sites: a coerced
`metadata_json` pair, the effective-prompt string, or a coerced
`extra_pnginfo` pair; string JSON values pass through `coerceVal`
unchanged, every non-string JSON value is replaced by its JSON text
(e.g. the number 80 becomes the two-character string "80"), and
`_coerce_metadata` maps an object to exactly its key-preserving coerced
pairs.  (That all keys and values are strings is the type of
`final_meta : List (FName × FName)` in this embedding.) -/
theorem final_meta_values_coerced (mj mode : FName) (inc : Bool) (po : FName)
    (pr : Json) (ex : Option (List (FName × Json))) (listing : List FName)
    (dir base fm : FName) (um : List (FName × FName))
    (hu : parse_user_meta mj = .ok um) :
    (∃ out, (save mj mode inc po pr ex listing dir base fm).2 = .ok out
      ∧ ∀ kv, kv ∈ out.final_meta →
          kv ∈ um
          ∨ (∃ p, effective_prompt po pr = some p ∧ kv = (("prompt").data, p))
          ∨ (∃ exl kv0, ex = some exl ∧ kv0 ∈ exl ∧ kv = (kv0.1, coerceVal kv0.2)))
    ∧ (∀ s, coerceVal (.str s) = s)
    ∧ (∀ v : Json, (∀ s, v ≠ .str s) → coerceVal v = dumps v)
    ∧ (∀ kvs : List (FName × Json), coerce_metadata (.obj kvs)
        = .ok (kvs.map (fun kv => (kv.1, coerceVal kv.2))))
    ∧ dumps (.num 80) = ("80").data := by
  refine ⟨?_, fun s => rfl, ?_, fun kvs => rfl, rfl⟩
  · refine ⟨_, by rw [save, hu], ?_⟩
    intro kv hkv
    rcases mem_dUpdate hkv with h2 | h2
    · rcases mem_base_metadata h2 with h3 | h3
      · right; left; exact h3
      · right; right; exact h3
    · left; exact h2
  · intro v hv
    cases v with
    | str s => exact absurd rfl (hv s)
    | null => rfl
    | bool b => rfl
    | num n => rfl
    | arr xs => rfl
    | obj kvs => rfl

/-- Witness for C4 at concrete inputs (non-string value 80 stored as the
string "80"). -/
theorem final_meta_values_coerced_witness :
    (∃ out, (save ("\x7b\"epochs\": 80\x7d").data ("replace").data false [] .null
        none [] ("o").data ("m").data ("smart_counter").data).2 = .ok out
      ∧ ∀ kv, kv ∈ out.final_meta →
          kv ∈ [(("epochs").data, ("80").data)]
          ∨ (∃ p, effective_prompt [] .null = some p ∧ kv = (("prompt").data, p))
          ∨ (∃ exl kv0, (none : Option (List (FName × Json))) = some exl
              ∧ kv0 ∈ exl ∧ kv = (kv0.1, coerceVal kv0.2)))
    ∧ dumps (.num 80) = ("80").data := by
  have h := final_meta_values_coerced ("\x7b\"epochs\": 80\x7d").data ("replace").data
    false [] .null none [] ("o").data ("m").data ("smart_counter").data
    [(("epochs").data, ("80").data)] (by rfl)
  exact ⟨h.1, h.2.2.2.2⟩

/-- C5: the effective prompt.  With a non-whitespace `prompt_override`,
if it parses as JSON the result is the serialization of the parsed value
(structured values to their JSON text; strings trimmed with empty
becoming absent; `null` becoming absent), and if it does not parse the
result is the raw trimmed override text; with an empty or whitespace-only
override the host prompt is serialized by the same rule. -/
theorem effective_prompt_spec (po : FName) (pr : Json) :
    ((pyStrip po).isEmpty = false →
      (∀ v, jsonParse po = .ok v → effective_prompt po pr = serialize_prompt v)
      ∧ (∀ e, jsonParse po = .error e → effective_prompt po pr = some (pyStrip po)))
    ∧ ((pyStrip po).isEmpty = true → effective_prompt po pr = serialize_prompt pr)
    ∧ serialize_prompt .null = none
    ∧ (∀ s, serialize_prompt (.str s)
        = if (pyStrip s).isEmpty then none else some (pyStrip s))
    ∧ (∀ v, v ≠ .null → (∀ s, v ≠ .str s) → serialize_prompt v = some (dumps v)) := by
  refine ⟨?_, ?_, rfl, fun s => rfl, ?_⟩
  · intro h
    have hpo : po.isEmpty = false := by
      cases po with
      | nil => simp [pyStrip] at h
      | cons c cs => rfl
    have hcond : (!po.isEmpty && !(pyStrip po).isEmpty) = true := by
      rw [hpo, h]; rfl
    constructor
    · intro v hv
      rw [effective_prompt, if_pos hcond, hv]
    · intro e he
      rw [effective_prompt, if_pos hcond, he, serialize_prompt]
      rw [if_neg (by rw [h]; exact Bool.false_ne_true)]
  · intro h
    have hcond : ¬ ((!po.isEmpty && !(pyStrip po).isEmpty) = true) := by
      rw [h]
      simp
    rw [effective_prompt, if_neg hcond]
  · intro v hnull hstr
    cases v with
    | null => exact absurd rfl hnull
    | str s => exact absurd rfl (hstr s)
    | bool b => rfl
    | num n => rfl
    | arr xs => rfl
    | obj kvs => rfl

/-- Witness for C5: a non-JSON override is used as raw trimmed text; a
JSON-object override is round-tripped through parse and re-serialize
(`'\x7b"a":1\x7d'` becomes the canonical `'\x7b"a": 1\x7d'`); a whitespace-only
override falls back to the (trimmed) host prompt string. -/
theorem effective_prompt_spec_witness :
    effective_prompt ("  hi  ").data .null = some (("hi").data)
    ∧ effective_prompt ("\x7b\"a\":1\x7d").data .null = some (("\x7b\"a\": 1\x7d").data)
    ∧ effective_prompt ("   ").data (.str (" host ").data) = some (("host").data) := by
  refine ⟨?_, ?_, ?_⟩
  · have h := ((effective_prompt_spec ("  hi  ").data .null).1 (by decide)).2
      (("expecting value").data) (by rfl)
    rw [h]; rfl
  · have h := ((effective_prompt_spec ("\x7b\"a\":1\x7d").data .null).1 (by decide)).1
      (.obj [(['a'], .num 1)]) (by rfl)
    rw [h]; rfl
  · have h := (effective_prompt_spec ("   ").data (.str (" host ").data)).2.1 (by decide)
    rw [h]; rfl

/-- C6: when parsing `metadata_json` fails (invalid JSON or not an
object), `save` returns that `ConfigurationError` having performed no
filesystem effect at all — no directory creation and no checkpoint write;
the effect list of a successful save shows both effects happen only after
the parse. -/
theorem config_error_no_fs_write (mj mode : FName) (inc : Bool) (po : FName)
    (pr : Json) (ex : Option (List (FName × Json))) (listing : List FName)
    (dir base fm : FName) (e : CfgErr)
    (h : parse_user_meta mj = .error e) :
    save mj mode inc po pr ex listing dir base fm = ([], .error e)
    ∧ ∀ um, parse_user_meta mj = .ok um →
        (save mj mode inc po pr ex listing dir base fm).1
          = [FsOp.makedirs dir,
             FsOp.write_checkpoint (choose_ckpt_pathD listing dir base fm)] := by
  constructor
  · rw [save, h]
  · intro um hum
    rw [h] at hum
    exact absurd hum (by simp)

/-- Witness for C6 at a concrete invalid input. -/
theorem config_error_no_fs_write_witness :
    save ("\x7bnot json").data ("merge_minimal").data true ("p").data .null none
      [("m.safetensors").data] ("o").data ("m").data ("smart_counter").data
      = ([], .error (.invalidJson (("expecting property name").data))) :=
  (config_error_no_fs_write ("\x7bnot json").data ("merge_minimal").data true
    ("p").data .null none [("m.safetensors").data] ("o").data ("m").data
    ("smart_counter").data (.invalidJson (("expecting property name").data))
    (by rfl)).1

/-- C10: in `merge_minimal` mode with `include_extra_pnginfo` on, when
`extra_pnginfo` contains the key `"prompt"`, the base mapping's
`"prompt"` entry is the coerced `extra_pnginfo` value — the extra-info
copy happens after the prompt key is set and overwrites it, whatever
`prompt_override` and the host prompt were. -/
theorem extra_overwrites_prompt (po : FName) (pr : Json)
    (ex : List (FName × Json)) (hwf : dWF ex) (vp : Json)
    (hvp : dGet ex ("prompt").data = some vp) :
    dGet (base_metadata_of ("merge_minimal").data true
        (effective_prompt po pr) (some ex)).1 ("prompt").data
      = some (coerceVal vp) := by
  have hco : dGet (coercePairs ex) ("prompt").data = some (coerceVal vp) := by
    rw [dGet_coercePairs, hvp]
    rfl
  rw [base_metadata_of, if_pos rfl]
  exact dGet_dUpdate_of_get (dWF_coercePairs hwf) hco

/-- Witness for C10: with an override in place, the base prompt still
comes from `extra_pnginfo`. -/
theorem extra_overwrites_prompt_witness :
    dGet (base_metadata_of ("merge_minimal").data true
        (effective_prompt ("override").data .null)
        (some [(("prompt").data, .str ("from-extra").data)])).1 ("prompt").data
      = some (("from-extra").data)
    ∧ effective_prompt ("override").data .null = some (("override").data) := by
  refine ⟨?_, by rfl⟩
  exact extra_overwrites_prompt ("override").data .null
    [(("prompt").data, .str ("from-extra").data)] (by rw [dWF]; simp)
    (.str ("from-extra").data) (by rfl)

example : natDigits 0 = ['0'] := by decide
example : natDigits 123456 = ['1','2','3','4','5','6'] := by decide
example : pad5 7 = ['0','0','0','0','7'] := by decide
example : digitsVal (pad5 12345) = 12345 := by decide
example :
    next_suffix_from_dir [("m_00003_.safetensors").data] ("m").data = 4 := by decide
example :
    next_suffix_from_dir [("m_123456_.safetensors").data] ("m").data = 123457 := by decide
example :
    choose_ckpt_pathD [("m.safetensors").data, ("m_00001_.safetensors").data]
      ("o").data ("m").data ("smart_counter").data
      = build_suffixed_path ("o").data ("m").data 2 := by decide
